import Mathlib

/-!
Verification development for the multi-destination path-selection core of the
SEP-Material-Transportation repository.

The Python source is shallowly embedded as executable Lean definitions:

* `calculate_total_path_cost` embeds `1013.py`'s evaluator (pairwise
  first-occurrence overlap accounting over interior-node sets and edge sets).
* `calculate_total_path_cost_us4` embeds `userStory4.py`'s evaluator
  (set-intersection overlap accounting over (name, cost) pairs and
  (start, end, cost) triples).
* `calculate_combined_paths_cost` embeds `1013.py`'s memoized recursive
  top-5 combination search, with the memo dictionary threaded explicitly
  and a fuel argument standing for the recursion stack; `ccpcAux` returns
  `none` exactly when the fuel is exhausted.
* `find_all_paths_to_destinations` embeds `1013.py`'s candidate-map builder,
  with the database query modelled as a supplied `results` function.

Node and edge costs are read through a `Db` record modelling the read-only
cost lookups `get_node_cost` / `get_edge_cost`; `userStory4.py` reads the
same values embedded in the path records, so both evaluators consult the
same `Db`.
-/

/-- A candidate entry in a per-destination list: either a real path (its full
node-name sequence, source first) or the string placeholder that
`userStory4.py` pads lists with ("没有可用的路径fk"); `1013.py` detects the
latter with `isinstance(path, str)`. -/
inductive CandPath where
  | real (nodes : List String)
  | strPlaceholder (tag : String)
deriving DecidableEq

/-- `isinstance(path, str)` on a candidate entry. -/
def isStr : CandPath → Bool
  | .real _ => false
  | .strPlaceholder _ => true

/-- Read-only cost lookups supplied by the graph database:
`get_node_cost(driver, node)` and `get_edge_cost(driver, edge)`. -/
structure Db where
  nodeCost : String → Int
  edgeCost : String × String → Int

/-- `set(node['device_name'] for node in path.nodes[1:])`: the interior node
set of a path — every node except the first (the source).  Placeholder
strings have no `nodes` attribute and yield the empty set. -/
def interiorNodes : CandPath → List String
  | .real ns => (ns.drop 1).dedup
  | .strPlaceholder _ => []

/-- `set((rel.start_node, rel.end_node) for rel in path.relationships)`:
the edge set of a path, as ordered pairs of consecutive node names. -/
def pathEdges : CandPath → List (String × String)
  | .real ns => (ns.zip ns.tail).dedup
  | .strPlaceholder _ => []

/-- One pass of `1013.py`'s overlap loop over a single path's element set:
for each element, if it was already visited its cost is added to the
overlap total, and then it is marked visited. -/
def chargeList {α : Type} [DecidableEq α] (cost : α → Int) :
    List α → List α → Int × List α
  | [], vis => (0, vis)
  | n :: t, vis =>
    let c := if n ∈ vis then cost n else 0
    let r := chargeList cost t (n :: vis)
    (c + r.1, r.2)

/-- The full overlap loop of `1013.py`'s `calculate_total_path_cost`:
walk the element sets of the paths in order, threading the visited set. -/
def chargePaths {α : Type} [DecidableEq α] (cost : α → Int) :
    List (List α) → List α → Int × List α
  | [], vis => (0, vis)
  | ns :: rest, vis =>
    let r1 := chargeList cost ns vis
    let r2 := chargePaths cost rest r1.2
    (r1.1 + r2.1, r2.2)

/-- `1013.py`'s `calculate_total_path_cost`: subtract from the summed raw
costs the cost of every node/edge re-occurrence across the paths (first
occurrence free, later occurrences charged), and return the total together
with the visited-node set. -/
def calculate_total_path_cost (db : Db) (paths : List CandPath)
    (sub_costs : List Int) : Int × List String :=
  let all_nodes := paths.map interiorNodes
  let all_edges := paths.map pathEdges
  let rn := chargePaths db.nodeCost all_nodes []
  let re := chargePaths db.edgeCost all_edges []
  (sub_costs.sum - rn.1 - re.1, rn.2)

/-- `userStory4.py`: `set((node['device_name'], node['cost']) for node in
path.nodes[1:])` — interior nodes paired with their database costs. -/
def interiorNodeCostPairs (db : Db) : CandPath → List (String × Int)
  | .real ns => ((ns.drop 1).map (fun n => (n, db.nodeCost n))).dedup
  | .strPlaceholder _ => []

/-- `userStory4.py`: `set((rel.start_node, rel.end_node, rel['cost']) for rel
in path.relationships)` — edges as (start, end, cost) triples. -/
def relCostTriples (db : Db) : CandPath → List (String × String × Int)
  | .real ns => ((ns.zip ns.tail).map (fun e => (e.1, e.2, db.edgeCost e))).dedup
  | .strPlaceholder _ => []

/-- Keep the elements of `l` that also occur in `s` (list intersection,
`l`'s order). -/
def memFilter {α : Type} [DecidableEq α] (l s : List α) : List α :=
  l.filter (fun x => decide (x ∈ s))

/-- `set.intersection(*sets)`: intersect a non-empty family of sets, the
first set filtered by membership in the rest. -/
def interAll {α : Type} [DecidableEq α] : List (List α) → List α
  | [] => []
  | h :: t => t.foldl (fun acc s => memFilter acc s) h

/-- `userStory4.py`'s `calculate_total_path_cost`: overlap is the
intersection of all paths' node-pair sets (resp. edge-triple sets), empty
when there is at most one path; its summed cost is subtracted from the
summed raw costs, and the names of the overlapping nodes are returned. -/
def calculate_total_path_cost_us4 (db : Db) (paths : List CandPath)
    (sub_costs : List Int) : Int × List String :=
  let all_nodes := paths.map (interiorNodeCostPairs db)
  let all_rels := paths.map (relCostTriples db)
  let overlapping_nodes := if all_nodes.length > 1 then interAll all_nodes else []
  let overlapping_rels := if all_rels.length > 1 then interAll all_rels else []
  let overlapping_nodes_cost := (overlapping_nodes.map (fun p => p.2)).sum
  let overlapping_rels_cost := (overlapping_rels.map (fun t => t.2.2)).sum
  (sub_costs.sum - (overlapping_nodes_cost + overlapping_rels_cost),
   overlapping_nodes.map (fun p => p.1))

/-- `str(path)` used in `1013.py`'s memo key; a real path's string rendering
is its node sequence, a placeholder is its own string. -/
def strOfPath : CandPath → String
  | .real ns => String.intercalate " -> " ns
  | .strPlaceholder s => s

/-- The per-destination candidate map `all_paths_info`, in insertion order. -/
abbrev Candidates := List (String × List (CandPath × Int))

/-- A partial or complete combination: the chosen (path, raw cost) pairs. -/
abbrev Combo := List (CandPath × Int)

/-- The memo key `(current_cost, tuple((str(p), c) ...), frozenset(visited))`. -/
abbrev MemoKey := Int × List (String × Int) × List String

/-- The memo dictionary, newest entry first (a later insertion of an equal
key shadows the older one, like a dict overwrite). -/
abbrev Memo := List (MemoKey × List (Combo × Int))

/-- Equality of visited-destination sets, modelling `frozenset` equality. -/
def setEqv (a b : List String) : Bool :=
  a.all (fun x => decide (x ∈ b)) && b.all (fun x => decide (x ∈ a))

/-- Equality test on memo keys: the visited component compares as a set. -/
def keyEqv (k₁ k₂ : MemoKey) : Bool :=
  decide (k₁.1 = k₂.1) && decide (k₁.2.1 = k₂.2.1) && setEqv k₁.2.2 k₂.2.2

/-- `memo_key in memo` / `memo[memo_key]`. -/
def memoFind (memo : Memo) (k : MemoKey) : Option (List (Combo × Int)) :=
  (memo.find? (fun e => keyEqv e.1 k)).map (fun e => e.2)

/-- `1013.py`'s `path_already_exists`: some recorded entry has the same cost
and its path list contains every (path, cost) pair of the new one. -/
def path_already_exists (paths_costs : List (Combo × Int)) (new_path : Combo)
    (new_cost : Int) : Bool :=
  paths_costs.any (fun pc =>
    decide (pc.2 = new_cost) && new_path.all (fun p => decide (p ∈ pc.1)))

/-- The accumulation loop `for sub_path, sub_cost in ...: if not
path_already_exists(...): combined_paths_costs.append(...)`. -/
def insertDedup (acc : List (Combo × Int)) (subs : List (Combo × Int)) :
    List (Combo × Int) :=
  subs.foldl (fun a sc => if path_already_exists a sc.1 sc.2 then a else a ++ [sc]) acc

/-- Stable insertion into a cost-sorted list, placing the new entry before
the first strictly more expensive one. -/
def insSorted (a : Combo × Int) : List (Combo × Int) → List (Combo × Int)
  | [] => [a]
  | b :: t => if a.2 ≤ b.2 then a :: b :: t else b :: insSorted a t

/-- `combined_paths_costs.sort(key=lambda x: x[1])`: Python's sort is stable,
and a stable ascending sort by key is extensionally unique, so insertion
sort is an exact model of it. -/
def sortByCost (l : List (Combo × Int)) : List (Combo × Int) :=
  l.foldr insSorted []

/-- The type of the recursive search viewed from one level down. -/
abbrev Recur := Candidates → Combo → Int → List String → Memo →
  Option (List (Combo × Int) × Memo)

/-- The inner loop `for path, cost in paths_and_costs` of
`calculate_combined_paths_cost`, for one destination: skip string
placeholders; otherwise extend the combination, reprice it via
`calculate_total_path_cost`, recurse (through `recur`) on the destinations
not yet visited, and merge the sub-results into the accumulator with the
`path_already_exists` check.  `none` propagates fuel exhaustion. -/
def innerLoop (db : Db) (recur : Recur) (info : Candidates) (dest : String)
    (cur : Combo) (visited : List String) :
    List (CandPath × Int) → List (Combo × Int) → Memo →
      Option (List (Combo × Int) × Memo)
  | [], acc, memo => some (acc, memo)
  | pc :: rest, acc, memo =>
    if isStr pc.1 then innerLoop db recur info dest cur visited rest acc memo
    else
      let new_path := cur ++ [pc]
      let total := (calculate_total_path_cost db (new_path.map (fun x => x.1))
        (new_path.map (fun x => x.2))).1
      let new_visited := dest :: visited
      let remaining := info.filter (fun e => !(decide (e.1 ∈ new_visited)))
      match recur remaining new_path total new_visited memo with
      | none => none
      | some (subs, memo') =>
          innerLoop db recur info dest cur visited rest (insertDedup acc subs) memo'

/-- The outer loop `for destination_name, paths_and_costs in
all_paths_info.items()`: destinations already visited are skipped. -/
def outerLoop (db : Db) (recur : Recur) (info : Candidates) (cur : Combo)
    (visited : List String) :
    Candidates → List (Combo × Int) → Memo → Option (List (Combo × Int) × Memo)
  | [], acc, memo => some (acc, memo)
  | entry :: rest, acc, memo =>
    if entry.1 ∈ visited then outerLoop db recur info cur visited rest acc memo
    else
      match innerLoop db recur info entry.1 cur visited entry.2 acc memo with
      | none => none
      | some (acc', memo') => outerLoop db recur info cur visited rest acc' memo'

/-- `1013.py`'s `calculate_combined_paths_cost`, with the recursion depth
made explicit as fuel (`none` = fuel exhausted; the Python recursion always
has enough stack, see the termination theorem): empty map returns the
current combination; otherwise consult the memo, run the two loops over the
whole map, sort ascending by cost, keep the first 5, and store in the memo. -/
def ccpcAux (db : Db) : Nat → Recur
  | 0 => fun _ _ _ _ _ => none
  | fuel + 1 => fun info cur cost visited memo =>
    if info = [] then some ([(cur, cost)], memo)
    else
      let key : MemoKey :=
        (cost, cur.map (fun pc => (strOfPath pc.1, pc.2)), visited)
      match memoFind memo key with
      | some r => some (r, memo)
      | none =>
          match outerLoop db (ccpcAux db fuel) info cur visited info [] memo with
          | none => none
          | some (combined, memo') =>
              let res := (sortByCost combined).take 5
              some (res, (key, res) :: memo')

/-- The entry point: `calculate_combined_paths_cost(all_paths_info,
current_path, current_cost, visited_destinations, memo)`.  One more unit of
fuel than there are destinations always suffices (proved below), so the
`getD` default is never taken. -/
def calculate_combined_paths_cost (db : Db) (info : Candidates) (cur : Combo)
    (cost : Int) (visited : List String) (memo : Memo) :
    List (Combo × Int) × Memo :=
  (ccpcAux db (info.length + 1) info cur cost visited memo).getD ([], memo)

/-- `1013.py`'s `find_all_paths_to_destinations`, with the per-destination
query results supplied by a `results` function: a destination is added to
the candidate map only `if paths_and_costs:` — empty query results drop the
destination from the map. -/
def find_all_paths_to_destinations (results : String → List (CandPath × Int))
    (dests : List String) : Candidates :=
  dests.foldl (fun acc d => if results d = [] then acc else acc ++ [(d, results d)]) []

/-- A fixed all-ones cost table used to instantiate theorems on concrete data. -/
def dbOne : Db := ⟨fun _ => 1, fun _ => 1⟩

/-- Ascending order on result entries: compare true costs. -/
def costLe (a b : Combo × Int) : Prop := a.2 ≤ b.2

/-- A result list is sorted ascending by true cost. -/
def SortedByCost (l : List (Combo × Int)) : Prop := l.Pairwise costLe

/-- Two result entries do not witness a duplicate: they do not have both the
same true cost and the same set of (path, raw cost) members. -/
def EntryDistinct (a b : Combo × Int) : Prop :=
  ¬(a.2 = b.2 ∧ ∀ x, x ∈ a.1 ↔ x ∈ b.1)

/-- No two entries of a result list have the same cost and the same member
set. -/
def NoDupResult (l : List (Combo × Int)) : Prop := l.Pairwise EntryDistinct

/-- Every result list stored in the memo is sorted ascending by true cost
and holds at most 5 entries. -/
def MemoSorted (memo : Memo) : Prop :=
  ∀ kv ∈ memo, SortedByCost kv.2 ∧ kv.2.length ≤ 5

/-- The sortedness/size contract of one level of the recursive search. -/
def AuxSorted (recur : Recur) : Prop :=
  ∀ info cur cost visited memo r memo', MemoSorted memo →
    recur info cur cost visited memo = some (r, memo') →
    (SortedByCost r ∧ r.length ≤ 5) ∧ MemoSorted memo'

/-- Every result list stored in the memo is duplicate-free. -/
def MemoNoDup (memo : Memo) : Prop := ∀ kv ∈ memo, NoDupResult kv.2

/-- The duplicate-freedom contract of one level of the recursive search. -/
def AuxNoDup (recur : Recur) : Prop :=
  ∀ info cur cost visited memo r memo', MemoNoDup memo →
    recur info cur cost visited memo = some (r, memo') →
    NoDupResult r ∧ MemoNoDup memo'

/-- Every chosen pair of the combination carries the raw cost assigned to
its path by the cost function `rc` (in the data model, a raw cost is a
function of the path). -/
def ConsistentCombo (rc : CandPath → Int) (combo : Combo) : Prop :=
  ∀ pc ∈ combo, pc.2 = rc pc.1

/-- Every combination of the result list is cost-consistent. -/
def ConsistentRes (rc : CandPath → Int) (l : List (Combo × Int)) : Prop :=
  ∀ ci ∈ l, ConsistentCombo rc ci.1

/-- Every candidate pair of the map is cost-consistent. -/
def ConsistentMap (rc : CandPath → Int) (info : Candidates) : Prop :=
  ∀ e ∈ info, ∀ pc ∈ e.2, pc.2 = rc pc.1

/-- Every result list stored in the memo is cost-consistent. -/
def MemoConsistent (rc : CandPath → Int) (memo : Memo) : Prop :=
  ∀ kv ∈ memo, ConsistentRes rc kv.2

/-- The cost-consistency contract of one level of the recursive search. -/
def AuxConsistent (rc : CandPath → Int) (recur : Recur) : Prop :=
  ∀ info cur cost visited memo r memo', ConsistentMap rc info →
    ConsistentCombo rc cur → MemoConsistent rc memo →
    recur info cur cost visited memo = some (r, memo') →
    ConsistentRes rc r ∧ MemoConsistent rc memo'

/-- Every candidate of the list is the string placeholder. -/
def allPlaceholders (l : List (CandPath × Int)) : Prop :=
  ∀ pc ∈ l, isStr pc.1 = true

/-- Destination `d` is requested (present in the map), not yet visited, and
every candidate list recorded for it holds only placeholder strings. -/
def BadDest (info : Candidates) (visited : List String) (d : String) : Prop :=
  d ∉ visited ∧ (∃ cl, (d, cl) ∈ info) ∧
    ∀ e ∈ info, e.1 = d → allPlaceholders e.2

/-- Every memoized result list is empty. -/
def MemoNil (memo : Memo) : Prop := ∀ kv ∈ memo, kv.2 = []

/-- The empty-result contract of one level of the search in the presence of
a placeholder-only destination. -/
def AuxNil (recur : Recur) : Prop :=
  ∀ info cur cost visited memo r memo' d, BadDest info visited d →
    MemoNil memo → recur info cur cost visited memo = some (r, memo') →
    r = [] ∧ MemoNil memo'

/-- A fixed all-zeros cost table (all costs are non-negative, and every
overlap is free). -/
def dbZero : Db := ⟨fun _ => 0, fun _ => 0⟩

/-- In how many of the element sets does `a` occur? -/
def occurrences {α : Type} [DecidableEq α] (a : α) (nss : List (List α)) : Nat :=
  nss.countP (fun ns => decide (a ∈ ns))

/-- No interior node and no edge occurs in two or more of the paths. -/
def NoOverlap (paths : List CandPath) : Prop :=
  (∀ n, occurrences n (paths.map interiorNodes) ≤ 1) ∧
  (∀ e, occurrences e (paths.map pathEdges) ≤ 1)

/-- Two combinations choose the same set of paths, compared by node
sequence alone (ignoring the recorded raw costs). -/
def pathSetEq (a b : Combo) : Prop :=
  ∀ p : CandPath, (∃ c, (p, c) ∈ a) ↔ (∃ c, (p, c) ∈ b)

theorem chargeList_snd_mem {α : Type} [DecidableEq α] (c : α → Int) :
    ∀ (ns vis : List α) (x : α),
      x ∈ (chargeList c ns vis).2 ↔ x ∈ ns ∨ x ∈ vis
  | [], vis, x => by simp [chargeList]
  | n :: t, vis, x => by
    have ih := chargeList_snd_mem c t (n :: vis) x
    show x ∈ (chargeList c t (n :: vis)).2 ↔ _
    rw [ih]
    simp [List.mem_cons]
    tauto

theorem chargeList_nonneg {α : Type} [DecidableEq α] (c : α → Int)
    (h0 : ∀ a, 0 ≤ c a) :
    ∀ (ns vis : List α), 0 ≤ (chargeList c ns vis).1
  | [], _ => le_refl 0
  | n :: t, vis => by
    have ih := chargeList_nonneg c h0 t (n :: vis)
    show 0 ≤ (if n ∈ vis then c n else 0) + (chargeList c t (n :: vis)).1
    split
    · exact add_nonneg (h0 n) ih
    · simpa using ih

theorem chargeList_fst {α : Type} [DecidableEq α] (c : α → Int) :
    ∀ (ns vis : List α), ns.Nodup →
      (chargeList c ns vis).1
        = ((ns.filter (fun n => decide (n ∈ vis))).map c).sum
  | [], vis, _ => by simp [chargeList]
  | n :: t, vis, h => by
    have hn : n ∉ t := (List.nodup_cons.mp h).1
    have ih := chargeList_fst c t (n :: vis) (List.nodup_cons.mp h).2
    have hfc : t.filter (fun x => decide (x ∈ n :: vis))
        = t.filter (fun x => decide (x ∈ vis)) := by
      refine List.filter_congr (fun x hx => ?_)
      have : x ≠ n := fun hxn => hn (hxn ▸ hx)
      simp [List.mem_cons, this]
    show (if n ∈ vis then c n else 0) + (chargeList c t (n :: vis)).1 = _
    rw [ih, hfc, List.filter_cons]
    by_cases hv : n ∈ vis <;> simp [hv]

theorem chargeList_ge {α : Type} [DecidableEq α] (c : α → Int)
    (h0 : ∀ a, 0 ≤ c a) (a : α) :
    ∀ (ns vis : List α), a ∈ ns → a ∈ vis → c a ≤ (chargeList c ns vis).1
  | [], _, hn, _ => absurd hn (List.not_mem_nil a)
  | n :: t, vis, hn, hv => by
    show c a ≤ (if n ∈ vis then c n else 0) + (chargeList c t (n :: vis)).1
    rcases List.mem_cons.mp hn with rfl | hat
    · have hrest := chargeList_nonneg c h0 t (a :: vis)
      simp only [if_pos hv]
      linarith
    · have ih := chargeList_ge c h0 a t (n :: vis) hat (List.mem_cons_of_mem n hv)
      have hhead : (0 : Int) ≤ if n ∈ vis then c n else 0 := by
        split
        · exact h0 n
        · exact le_refl 0
      linarith

theorem chargePaths_snd_mem {α : Type} [DecidableEq α] (c : α → Int) :
    ∀ (nss : List (List α)) (vis : List α) (x : α),
      x ∈ (chargePaths c nss vis).2 ↔ (∃ ns ∈ nss, x ∈ ns) ∨ x ∈ vis
  | [], vis, x => by simp [chargePaths]
  | ns :: rest, vis, x => by
    have ih := chargePaths_snd_mem c rest (chargeList c ns vis).2 x
    show x ∈ (chargePaths c rest (chargeList c ns vis).2).2 ↔ _
    rw [ih, chargeList_snd_mem]
    simp only [List.mem_cons]
    constructor
    · rintro (⟨ns', h1, h2⟩ | (h | h))
      · exact Or.inl ⟨ns', Or.inr h1, h2⟩
      · exact Or.inl ⟨ns, Or.inl rfl, h⟩
      · exact Or.inr h
    · rintro (⟨ns', (rfl | h1), h2⟩ | h)
      · exact Or.inr (Or.inl h2)
      · exact Or.inl ⟨ns', h1, h2⟩
      · exact Or.inr (Or.inr h)

theorem chargePaths_nonneg {α : Type} [DecidableEq α] (c : α → Int)
    (h0 : ∀ a, 0 ≤ c a) :
    ∀ (nss : List (List α)) (vis : List α), 0 ≤ (chargePaths c nss vis).1
  | [], _ => le_refl 0
  | ns :: rest, vis => by
    have h1 := chargeList_nonneg c h0 ns vis
    have h2 := chargePaths_nonneg c h0 rest (chargeList c ns vis).2
    show 0 ≤ (chargeList c ns vis).1 + (chargePaths c rest (chargeList c ns vis).2).1
    linarith

theorem chargePaths_ge {α : Type} [DecidableEq α] (c : α → Int)
    (h0 : ∀ a, 0 ≤ c a) (a : α) :
    ∀ (nss : List (List α)) (vis : List α), a ∈ vis → (∃ ns ∈ nss, a ∈ ns) →
      c a ≤ (chargePaths c nss vis).1
  | [], _, _, hns => absurd hns (by simp)
  | ns :: rest, vis, hv, hns => by
    show c a ≤ (chargeList c ns vis).1 + (chargePaths c rest (chargeList c ns vis).2).1
    rcases hns with ⟨ns', hmem, ha⟩
    rcases List.mem_cons.mp hmem with rfl | hrest
    · have h1 := chargeList_ge c h0 a ns' vis ha hv
      have h2 := chargePaths_nonneg c h0 rest (chargeList c ns' vis).2
      linarith
    · have hv' : a ∈ (chargeList c ns vis).2 := (chargeList_snd_mem c ns vis a).mpr (Or.inr hv)
      have ih := chargePaths_ge c h0 a rest (chargeList c ns vis).2 hv' ⟨ns', hrest, ha⟩
      have h1 := chargeList_nonneg c h0 ns vis
      linarith

theorem chargePaths_zero {α : Type} [DecidableEq α] (c : α → Int) :
    ∀ (nss : List (List α)) (vis : List α), (∀ ns ∈ nss, ns.Nodup) →
      (∀ x ∈ vis, ∀ ns ∈ nss, x ∉ ns) →
      (∀ a, nss.countP (fun ns => decide (a ∈ ns)) ≤ 1) →
      (chargePaths c nss vis).1 = 0
  | [], _, _, _, _ => rfl
  | ns :: rest, vis, hnd, hdisj, hcount => by
    show (chargeList c ns vis).1 + (chargePaths c rest (chargeList c ns vis).2).1 = 0
    have hhead : (chargeList c ns vis).1 = 0 := by
      rw [chargeList_fst c ns vis (hnd ns (List.mem_cons_self ns rest))]
      have : ns.filter (fun n => decide (n ∈ vis)) = [] := by
        rw [List.filter_eq_nil_iff]
        intro a ha
        simpa using fun hav => hdisj a hav ns (List.mem_cons_self ns rest) ha
      rw [this]; rfl
    have hrest : (chargePaths c rest (chargeList c ns vis).2).1 = 0 := by
      refine chargePaths_zero c rest (chargeList c ns vis).2
        (fun ns' h => hnd ns' (List.mem_cons_of_mem ns h)) ?_ ?_
      · intro x hx ns' hns'
        rcases (chargeList_snd_mem c ns vis x).mp hx with hxns | hxvis
        · have hcx := hcount x
          rw [List.countP_cons] at hcx
          simp [hxns] at hcx
          exact hcx ns' hns'
        · exact hdisj x hxvis ns' (List.mem_cons_of_mem ns hns')
      · intro a
        have := hcount a
        rw [List.countP_cons] at this
        omega
    rw [hhead, hrest]
    rfl

theorem chargePaths_pos {α : Type} [DecidableEq α] (c : α → Int)
    (h0 : ∀ b, 0 ≤ c b) (a : α) (hca : 0 < c a) :
    ∀ (nss : List (List α)) (vis : List α),
      2 ≤ nss.countP (fun ns => decide (a ∈ ns)) →
      0 < (chargePaths c nss vis).1
  | [], _, h2 => by simp [List.countP_nil] at h2
  | ns :: rest, vis, h2 => by
    show 0 < (chargeList c ns vis).1 + (chargePaths c rest (chargeList c ns vis).2).1
    have hhead := chargeList_nonneg c h0 ns vis
    rw [List.countP_cons] at h2
    by_cases hans : a ∈ ns
    · simp [hans] at h2
      have hex : ∃ ns' ∈ rest, a ∈ ns' := h2
      have hv' : a ∈ (chargeList c ns vis).2 :=
        (chargeList_snd_mem c ns vis a).mpr (Or.inl hans)
      have := chargePaths_ge c h0 a rest (chargeList c ns vis).2 hv' hex
      linarith
    · simp [hans] at h2
      have ih := chargePaths_pos c h0 a hca rest (chargeList c ns vis).2 h2
      linarith

theorem interiorNodes_nodup (p : CandPath) : (interiorNodes p).Nodup := by
  cases p with
  | real ns => exact List.nodup_dedup _
  | strPlaceholder s => exact List.nodup_nil

theorem pathEdges_nodup (p : CandPath) : (pathEdges p).Nodup := by
  cases p with
  | real ns => exact List.nodup_dedup _
  | strPlaceholder s => exact List.nodup_nil

theorem chargeList_fst_nil_vis {α : Type} [DecidableEq α] (c : α → Int)
    (ns : List α) (h : ns.Nodup) : (chargeList c ns []).1 = 0 := by
  rw [chargeList_fst c ns [] h]
  have : ns.filter (fun n => decide (n ∈ ([] : List α))) = [] := by
    simp
  rw [this]
  rfl

theorem chargePaths_pair {α : Type} [DecidableEq α] (c : α → Int)
    (l₁ l₂ : List α) (h₁ : l₁.Nodup) (h₂ : l₂.Nodup) :
    (chargePaths c [l₁, l₂] []).1
      = ((l₂.filter (fun x => decide (x ∈ l₁))).map c).sum := by
  show (chargeList c l₁ []).1
      + ((chargeList c l₂ (chargeList c l₁ []).2).1 + 0) = _
  rw [chargeList_fst_nil_vis c l₁ h₁, chargeList_fst c l₂ _ h₂]
  have hfc : l₂.filter (fun x => decide (x ∈ (chargeList c l₁ []).2))
      = l₂.filter (fun x => decide (x ∈ l₁)) := by
    refine List.filter_congr (fun x _ => ?_)
    have := chargeList_snd_mem c l₁ [] x
    simp only [List.not_mem_nil, or_false] at this
    simp [this]
  rw [hfc]
  ring

theorem sum_inter_comm {α : Type} [DecidableEq α] (c : α → Int)
    (l₁ l₂ : List α) (h₁ : l₁.Nodup) (h₂ : l₂.Nodup) :
    ((l₁.filter (fun x => decide (x ∈ l₂))).map c).sum
      = ((l₂.filter (fun x => decide (x ∈ l₁))).map c).sum := by
  have hperm : (l₁.filter (fun x => decide (x ∈ l₂))).Perm
      (l₂.filter (fun x => decide (x ∈ l₁))) := by
    rw [List.perm_ext_iff_of_nodup (h₁.filter _) (h₂.filter _)]
    intro a
    simp [List.mem_filter, and_comm]
  exact (hperm.map c).sum_eq

theorem dedup_map_of_injective {α β : Type} [DecidableEq α] [DecidableEq β]
    (f : α → β) (hf : Function.Injective f) :
    ∀ l : List α, (l.map f).dedup = l.dedup.map f
  | [] => rfl
  | a :: t => by
    by_cases h : a ∈ t
    · rw [List.map_cons, List.dedup_cons_of_mem (List.mem_map_of_mem f h),
        List.dedup_cons_of_mem h, dedup_map_of_injective f hf t]
    · have hfm : f a ∉ t.map f := by
        intro hmem
        rcases List.mem_map.mp hmem with ⟨b, hb, hfb⟩
        exact h ((hf hfb) ▸ hb)
      rw [List.map_cons, List.dedup_cons_of_not_mem hfm,
        List.dedup_cons_of_not_mem h, List.map_cons,
        dedup_map_of_injective f hf t]

theorem filter_mem_map_of_injective {α β : Type} [DecidableEq α] [DecidableEq β]
    (f : α → β) (hf : Function.Injective f) (l₁ l₂ : List α) :
    (l₁.map f).filter (fun y => decide (y ∈ l₂.map f))
      = (l₁.filter (fun x => decide (x ∈ l₂))).map f := by
  rw [List.filter_map]
  congr 1
  refine List.filter_congr (fun x _ => ?_)
  simp only [Function.comp_apply]
  apply decide_eq_decide.mpr
  constructor
  · intro hmem
    rcases List.mem_map.mp hmem with ⟨b, hb, hfb⟩
    exact (hf hfb) ▸ hb
  · exact List.mem_map_of_mem f

theorem nodePair_injective (db : Db) :
    Function.Injective (fun n : String => (n, db.nodeCost n)) :=
  fun _ _ h => congrArg Prod.fst h

theorem edgeTriple_injective (db : Db) :
    Function.Injective (fun e : String × String => (e.1, e.2, db.edgeCost e)) := by
  intro a b h
  have h1 := congrArg Prod.fst h
  have h2 := congrArg (fun t : String × String × Int => t.2.1) h
  simp only at h1 h2
  exact Prod.ext h1 h2

theorem interiorNodeCostPairs_eq (db : Db) (p : CandPath) :
    interiorNodeCostPairs db p
      = (interiorNodes p).map (fun n => (n, db.nodeCost n)) := by
  cases p with
  | real ns =>
    exact dedup_map_of_injective _ (nodePair_injective db) (ns.drop 1)
  | strPlaceholder s => rfl

theorem relCostTriples_eq (db : Db) (p : CandPath) :
    relCostTriples db p
      = (pathEdges p).map (fun e => (e.1, e.2, db.edgeCost e)) := by
  cases p with
  | real ns =>
    exact dedup_map_of_injective _ (edgeTriple_injective db) (ns.zip ns.tail)
  | strPlaceholder s => rfl

theorem chargePaths_pair_mf {α : Type} [DecidableEq α] (c : α → Int)
    (l₁ l₂ : List α) (h₁ : l₁.Nodup) (h₂ : l₂.Nodup) :
    (chargePaths c [l₁, l₂] []).1 = ((memFilter l₂ l₁).map c).sum :=
  chargePaths_pair c l₁ l₂ h₁ h₂

theorem sum_inter_comm_mf {α : Type} [DecidableEq α] (c : α → Int)
    (l₁ l₂ : List α) (h₁ : l₁.Nodup) (h₂ : l₂.Nodup) :
    ((memFilter l₁ l₂).map c).sum = ((memFilter l₂ l₁).map c).sum :=
  sum_inter_comm c l₁ l₂ h₁ h₂

theorem memFilter_map_of_injective {α β : Type} [DecidableEq α] [DecidableEq β]
    (f : α → β) (hf : Function.Injective f) (l₁ l₂ : List α) :
    memFilter (l₁.map f) (l₂.map f) = (memFilter l₁ l₂).map f :=
  filter_mem_map_of_injective f hf l₁ l₂

theorem us4_pair (db : Db) (p₁ p₂ : CandPath) (c₁ c₂ : Int) :
    (calculate_total_path_cost_us4 db [p₁, p₂] [c₁, c₂]).1
      = [c₁, c₂].sum
        - (((memFilter (interiorNodeCostPairs db p₁) (interiorNodeCostPairs db p₂)).map
              (fun q => q.2)).sum
          + ((memFilter (relCostTriples db p₁) (relCostTriples db p₂)).map
              (fun t => t.2.2)).sum) := by
  simp only [calculate_total_path_cost_us4, interAll, List.map_cons, List.map_nil,
    List.length_cons, List.length_nil, List.foldl_cons, List.foldl_nil]
  norm_num

theorem two_path_cost_eq (db : Db) (p₁ p₂ : CandPath) (c₁ c₂ : Int) :
    (calculate_total_path_cost db [p₁, p₂] [c₁, c₂]).1
      = (calculate_total_path_cost_us4 db [p₁, p₂] [c₁, c₂]).1 := by
  have hN₁ := interiorNodes_nodup p₁
  have hN₂ := interiorNodes_nodup p₂
  have hE₁ := pathEdges_nodup p₁
  have hE₂ := pathEdges_nodup p₂
  have hL : (calculate_total_path_cost db [p₁, p₂] [c₁, c₂]).1
      = [c₁, c₂].sum
        - ((memFilter (interiorNodes p₂) (interiorNodes p₁)).map db.nodeCost).sum
        - ((memFilter (pathEdges p₂) (pathEdges p₁)).map db.edgeCost).sum := by
    show [c₁, c₂].sum
        - (chargePaths db.nodeCost [interiorNodes p₁, interiorNodes p₂] []).1
        - (chargePaths db.edgeCost [pathEdges p₁, pathEdges p₂] []).1 = _
    rw [chargePaths_pair_mf _ _ _ hN₁ hN₂, chargePaths_pair_mf _ _ _ hE₁ hE₂]
  rw [hL, us4_pair]
  rw [interiorNodeCostPairs_eq, interiorNodeCostPairs_eq,
    relCostTriples_eq, relCostTriples_eq,
    memFilter_map_of_injective _ (nodePair_injective db),
    memFilter_map_of_injective _ (edgeTriple_injective db)]
  rw [List.map_map, List.map_map]
  have hmn : ((fun q : String × Int => q.2) ∘ fun n => (n, db.nodeCost n))
      = db.nodeCost := rfl
  have hme : ((fun t : String × String × Int => t.2.2) ∘
      fun e : String × String => (e.1, e.2, db.edgeCost e)) = db.edgeCost := rfl
  rw [hmn, hme, sum_inter_comm_mf db.nodeCost _ _ hN₁ hN₂,
    sum_inter_comm_mf db.edgeCost _ _ hE₁ hE₂]
  ring

theorem insSorted_perm (a : Combo × Int) :
    ∀ l : List (Combo × Int), (insSorted a l).Perm (a :: l)
  | [] => List.Perm.refl _
  | b :: t => by
    show (if a.2 ≤ b.2 then a :: b :: t else b :: insSorted a t).Perm _
    split
    · exact List.Perm.refl _
    · exact ((insSorted_perm a t).cons b).trans (List.Perm.swap a b t)

theorem insSorted_mem {a x : Combo × Int} {l : List (Combo × Int)}
    (h : x ∈ insSorted a l) : x = a ∨ x ∈ l := by
  have := (insSorted_perm a l).mem_iff.mp h
  simpa using this

theorem insSorted_sorted (a : Combo × Int) :
    ∀ l : List (Combo × Int), SortedByCost l → SortedByCost (insSorted a l)
  | [], _ => List.pairwise_singleton _ _
  | b :: t, h => by
    show SortedByCost (if a.2 ≤ b.2 then a :: b :: t else b :: insSorted a t)
    rcases List.pairwise_cons.mp h with ⟨hb, ht⟩
    split
    · rename_i hab
      refine List.pairwise_cons.mpr ⟨?_, h⟩
      intro x hx
      rcases List.mem_cons.mp hx with rfl | hxt
      · exact hab
      · exact le_trans hab (hb x hxt)
    · rename_i hab
      have hba : b.2 ≤ a.2 := le_of_not_le hab
      refine List.pairwise_cons.mpr ⟨?_, insSorted_sorted a t ht⟩
      intro x hx
      rcases insSorted_mem hx with rfl | hxt
      · exact hba
      · exact hb x hxt

theorem sortByCost_perm : ∀ l : List (Combo × Int), (sortByCost l).Perm l
  | [] => List.Perm.refl _
  | a :: t => by
    show (insSorted a (sortByCost t)).Perm (a :: t)
    exact (insSorted_perm a (sortByCost t)).trans ((sortByCost_perm t).cons a)

theorem sortByCost_sorted : ∀ l : List (Combo × Int), SortedByCost (sortByCost l)
  | [] => List.Pairwise.nil
  | a :: t => insSorted_sorted a (sortByCost t) (sortByCost_sorted t)

theorem entryDistinct_symm : Symmetric EntryDistinct := by
  intro a b hab ⟨hc, hm⟩
  exact hab ⟨hc.symm, fun x => (hm x).symm⟩

theorem path_already_exists_false {acc : List (Combo × Int)} {p : Combo}
    {ci : Int} (h : path_already_exists acc p ci = false) :
    ∀ e ∈ acc, ¬(e.2 = ci ∧ ∀ x ∈ p, x ∈ e.1) := by
  intro e he ⟨hc, hm⟩
  rw [path_already_exists, List.any_eq_false] at h
  have := h e he
  simp only [Bool.and_eq_true, decide_eq_true_eq, List.all_eq_true] at this
  exact this ⟨hc, fun x hx => by simpa using hm x hx⟩

theorem insertDedup_mem :
    ∀ (subs acc : List (Combo × Int)) (x : Combo × Int),
      x ∈ insertDedup acc subs → x ∈ acc ∨ x ∈ subs
  | [], acc, x, h => Or.inl h
  | sc :: rest, acc, x, h => by
    show x ∈ acc ∨ x ∈ sc :: rest
    have hstep : insertDedup acc (sc :: rest)
        = insertDedup (if path_already_exists acc sc.1 sc.2 then acc
            else acc ++ [sc]) rest := rfl
    rw [hstep] at h
    rcases insertDedup_mem rest _ x h with hacc | hrest
    · split at hacc
      · exact Or.inl hacc
      · rcases List.mem_append.mp hacc with h1 | h1
        · exact Or.inl h1
        · simp only [List.mem_singleton] at h1
          exact Or.inr (h1 ▸ List.mem_cons_self sc rest)
    · exact Or.inr (List.mem_cons_of_mem sc hrest)

theorem insertDedup_noDup :
    ∀ (subs acc : List (Combo × Int)), NoDupResult acc →
      NoDupResult (insertDedup acc subs)
  | [], acc, h => h
  | sc :: rest, acc, h => by
    have hstep : insertDedup acc (sc :: rest)
        = insertDedup (if path_already_exists acc sc.1 sc.2 then acc
            else acc ++ [sc]) rest := rfl
    rw [hstep]
    refine insertDedup_noDup rest _ ?_
    split
    · exact h
    · rename_i hpae
      rw [Bool.not_eq_true] at hpae
      rw [NoDupResult, List.pairwise_append]
      refine ⟨h, List.pairwise_singleton _ _, ?_⟩
      intro a ha b hb
      simp only [List.mem_singleton] at hb
      subst hb
      intro ⟨hc, hm⟩
      exact path_already_exists_false hpae a ha ⟨hc, fun x hx => (hm x).mpr hx⟩

theorem memoFind_mem {memo : Memo} {k : MemoKey}
    {r : List (Combo × Int)} (h : memoFind memo k = some r) :
    ∃ key, (key, r) ∈ memo := by
  rw [memoFind] at h
  cases hf : memo.find? (fun e => keyEqv e.1 k) with
  | none => rw [hf] at h; cases h
  | some e =>
    rw [hf] at h
    have h2 : e.2 = r := by simpa using h
    exact ⟨e.1, by rw [← h2]; exact List.mem_of_find?_eq_some hf⟩

theorem innerLoop_sorted (db : Db) (recur : Recur) (hrec : AuxSorted recur)
    (info : Candidates) (dest : String) (cur : Combo) (visited : List String) :
    ∀ (cands : List (CandPath × Int)) (acc : List (Combo × Int)) (memo : Memo)
      {acc' : List (Combo × Int)} {memo' : Memo}, MemoSorted memo →
      innerLoop db recur info dest cur visited cands acc memo = some (acc', memo') →
      MemoSorted memo' := by
  intro cands
  induction cands with
  | nil =>
    intro acc memo acc' memo' hm heq
    simp only [innerLoop] at heq
    injection heq with h
    injection h with h1 h2
    subst h1 h2
    exact hm
  | cons pc rest ih =>
    intro acc memo acc' memo' hm heq
    simp only [innerLoop] at heq
    split at heq
    · exact ih _ _ hm heq
    · split at heq
      · cases heq
      · rename_i subs memo₁ hr
        have hm₁ := (hrec _ _ _ _ _ _ _ hm hr).2
        exact ih _ _ hm₁ heq

theorem outerLoop_sorted (db : Db) (recur : Recur) (hrec : AuxSorted recur)
    (info : Candidates) (cur : Combo) (visited : List String) :
    ∀ (entries : Candidates) (acc : List (Combo × Int)) (memo : Memo)
      {acc' : List (Combo × Int)} {memo' : Memo}, MemoSorted memo →
      outerLoop db recur info cur visited entries acc memo = some (acc', memo') →
      MemoSorted memo' := by
  intro entries
  induction entries with
  | nil =>
    intro acc memo acc' memo' hm heq
    simp only [outerLoop] at heq
    injection heq with h
    injection h with h1 h2
    subst h1 h2
    exact hm
  | cons entry rest ih =>
    intro acc memo acc' memo' hm heq
    simp only [outerLoop] at heq
    split at heq
    · exact ih _ _ hm heq
    · split at heq
      · cases heq
      · rename_i acc₁ memo₁ hinner
        have hm₁ := innerLoop_sorted db recur hrec info entry.1 cur visited
          entry.2 acc memo hm hinner
        exact ih _ _ hm₁ heq

theorem ccpcAux_sorted (db : Db) : ∀ fuel, AuxSorted (ccpcAux db fuel) := by
  intro fuel
  induction fuel with
  | zero =>
    intro info cur cost visited memo r memo' hm heq
    simp only [ccpcAux] at heq
    cases heq
  | succ fuel ih =>
    intro info cur cost visited memo r memo' hm heq
    simp only [ccpcAux] at heq
    split at heq
    · injection heq with h
      injection h with h1 h2
      subst h1 h2
      exact ⟨⟨List.pairwise_singleton _ _, by simp⟩, hm⟩
    · split at heq
      · rename_i r₀ hfind
        injection heq with h
        injection h with h1 h2
        subst h1 h2
        obtain ⟨key, hkey⟩ := memoFind_mem hfind
        exact ⟨hm (key, r₀) hkey, hm⟩
      · split at heq
        · cases heq
        · rename_i combined memo₁ houter
          have hm₁ := outerLoop_sorted db _ ih info cur visited info [] memo hm houter
          injection heq with h
          injection h with h1 h2
          subst h1 h2
          have hsorted : SortedByCost ((sortByCost combined).take 5) :=
            List.Pairwise.sublist (List.take_sublist 5 _) (sortByCost_sorted combined)
          have hlen : ((sortByCost combined).take 5).length ≤ 5 := by
            rw [List.length_take]
            omega
          refine ⟨⟨hsorted, hlen⟩, ?_⟩
          intro kv hkv
          rcases List.mem_cons.mp hkv with rfl | hkv'
          · exact ⟨hsorted, hlen⟩
          · exact hm₁ kv hkv'

theorem innerLoop_noDup (db : Db) (recur : Recur) (hrec : AuxNoDup recur)
    (info : Candidates) (dest : String) (cur : Combo) (visited : List String) :
    ∀ (cands : List (CandPath × Int)) (acc : List (Combo × Int)) (memo : Memo)
      {acc' : List (Combo × Int)} {memo' : Memo}, NoDupResult acc → MemoNoDup memo →
      innerLoop db recur info dest cur visited cands acc memo = some (acc', memo') →
      NoDupResult acc' ∧ MemoNoDup memo' := by
  intro cands
  induction cands with
  | nil =>
    intro acc memo acc' memo' hacc hm heq
    simp only [innerLoop] at heq
    injection heq with h
    injection h with h1 h2
    subst h1 h2
    exact ⟨hacc, hm⟩
  | cons pc rest ih =>
    intro acc memo acc' memo' hacc hm heq
    simp only [innerLoop] at heq
    split at heq
    · exact ih _ _ hacc hm heq
    · split at heq
      · cases heq
      · rename_i subs memo₁ hr
        have hm₁ := (hrec _ _ _ _ _ _ _ hm hr).2
        exact ih _ _ (insertDedup_noDup subs acc hacc) hm₁ heq

theorem outerLoop_noDup (db : Db) (recur : Recur) (hrec : AuxNoDup recur)
    (info : Candidates) (cur : Combo) (visited : List String) :
    ∀ (entries : Candidates) (acc : List (Combo × Int)) (memo : Memo)
      {acc' : List (Combo × Int)} {memo' : Memo}, NoDupResult acc → MemoNoDup memo →
      outerLoop db recur info cur visited entries acc memo = some (acc', memo') →
      NoDupResult acc' ∧ MemoNoDup memo' := by
  intro entries
  induction entries with
  | nil =>
    intro acc memo acc' memo' hacc hm heq
    simp only [outerLoop] at heq
    injection heq with h
    injection h with h1 h2
    subst h1 h2
    exact ⟨hacc, hm⟩
  | cons entry rest ih =>
    intro acc memo acc' memo' hacc hm heq
    simp only [outerLoop] at heq
    split at heq
    · exact ih _ _ hacc hm heq
    · split at heq
      · cases heq
      · rename_i acc₁ memo₁ hinner
        have h₁ := innerLoop_noDup db recur hrec info entry.1 cur visited
          entry.2 acc memo hacc hm hinner
        exact ih _ _ h₁.1 h₁.2 heq

theorem ccpcAux_noDup (db : Db) : ∀ fuel, AuxNoDup (ccpcAux db fuel) := by
  intro fuel
  induction fuel with
  | zero =>
    intro info cur cost visited memo r memo' hm heq
    simp only [ccpcAux] at heq
    cases heq
  | succ fuel ih =>
    intro info cur cost visited memo r memo' hm heq
    simp only [ccpcAux] at heq
    split at heq
    · injection heq with h
      injection h with h1 h2
      subst h1 h2
      exact ⟨List.pairwise_singleton _ _, hm⟩
    · split at heq
      · rename_i r₀ hfind
        injection heq with h
        injection h with h1 h2
        subst h1 h2
        obtain ⟨key, hkey⟩ := memoFind_mem hfind
        exact ⟨hm (key, r₀) hkey, hm⟩
      · split at heq
        · cases heq
        · rename_i combined memo₁ houter
          have h₁ := outerLoop_noDup db _ ih info cur visited info [] memo
            List.Pairwise.nil hm houter
          injection heq with h
          injection h with h1 h2
          subst h1 h2
          have hsortperm : (sortByCost combined).Pairwise EntryDistinct :=
            ((sortByCost_perm combined).pairwise_iff
              (fun hxy => entryDistinct_symm hxy)).mpr h₁.1
          have hres : NoDupResult ((sortByCost combined).take 5) :=
            List.Pairwise.sublist (List.take_sublist 5 _) hsortperm
          refine ⟨hres, ?_⟩
          intro kv hkv
          rcases List.mem_cons.mp hkv with rfl | hkv'
          · exact hres
          · exact h₁.2 kv hkv'

theorem insertDedup_consistent (rc : CandPath → Int)
    {subs acc : List (Combo × Int)} (hacc : ConsistentRes rc acc)
    (hsubs : ConsistentRes rc subs) : ConsistentRes rc (insertDedup acc subs) := by
  intro ci hci
  rcases insertDedup_mem subs acc ci hci with h | h
  · exact hacc ci h
  · exact hsubs ci h

theorem innerLoop_consistent (rc : CandPath → Int) (db : Db) (recur : Recur)
    (hrec : AuxConsistent rc recur) (info : Candidates) (dest : String)
    (cur : Combo) (visited : List String) (hinfo : ConsistentMap rc info)
    (hcur : ConsistentCombo rc cur) :
    ∀ (cands : List (CandPath × Int)), (∀ pc ∈ cands, pc.2 = rc pc.1) →
      ∀ (acc : List (Combo × Int)) (memo : Memo)
        {acc' : List (Combo × Int)} {memo' : Memo},
        ConsistentRes rc acc → MemoConsistent rc memo →
        innerLoop db recur info dest cur visited cands acc memo = some (acc', memo') →
        ConsistentRes rc acc' ∧ MemoConsistent rc memo' := by
  intro cands
  induction cands with
  | nil =>
    intro _ acc memo acc' memo' hacc hm heq
    simp only [innerLoop] at heq
    injection heq with h
    injection h with h1 h2
    subst h1 h2
    exact ⟨hacc, hm⟩
  | cons pc rest ih =>
    intro hcands acc memo acc' memo' hacc hm heq
    have hrest : ∀ pc' ∈ rest, pc'.2 = rc pc'.1 :=
      fun pc' h => hcands pc' (List.mem_cons_of_mem pc h)
    simp only [innerLoop] at heq
    split at heq
    · exact ih hrest _ _ hacc hm heq
    · split at heq
      · cases heq
      · rename_i subs memo₁ hr
        have hnew : ConsistentCombo rc (cur ++ [pc]) := by
          intro x hx
          rcases List.mem_append.mp hx with h | h
          · exact hcur x h
          · simp only [List.mem_singleton] at h
            exact h ▸ hcands pc (List.mem_cons_self pc rest)
        have hrem : ConsistentMap rc (info.filter
            (fun e => !(decide (e.1 ∈ dest :: visited)))) :=
          fun e he => hinfo e (List.mem_of_mem_filter he)
        have h₁ := hrec _ _ _ _ _ _ _ hrem hnew hm hr
        exact ih hrest _ _ (insertDedup_consistent rc hacc h₁.1) h₁.2 heq

theorem outerLoop_consistent (rc : CandPath → Int) (db : Db) (recur : Recur)
    (hrec : AuxConsistent rc recur) (info : Candidates) (cur : Combo)
    (visited : List String) (hinfo : ConsistentMap rc info)
    (hcur : ConsistentCombo rc cur) :
    ∀ (entries : Candidates), ConsistentMap rc entries →
      ∀ (acc : List (Combo × Int)) (memo : Memo)
        {acc' : List (Combo × Int)} {memo' : Memo},
        ConsistentRes rc acc → MemoConsistent rc memo →
        outerLoop db recur info cur visited entries acc memo = some (acc', memo') →
        ConsistentRes rc acc' ∧ MemoConsistent rc memo' := by
  intro entries
  induction entries with
  | nil =>
    intro _ acc memo acc' memo' hacc hm heq
    simp only [outerLoop] at heq
    injection heq with h
    injection h with h1 h2
    subst h1 h2
    exact ⟨hacc, hm⟩
  | cons entry rest ih =>
    intro hentries acc memo acc' memo' hacc hm heq
    have hrest : ConsistentMap rc rest :=
      fun e he => hentries e (List.mem_cons_of_mem entry he)
    simp only [outerLoop] at heq
    split at heq
    · exact ih hrest _ _ hacc hm heq
    · split at heq
      · cases heq
      · rename_i acc₁ memo₁ hinner
        have h₁ := innerLoop_consistent rc db recur hrec info entry.1 cur visited
          hinfo hcur entry.2 (hentries entry (List.mem_cons_self entry rest))
          acc memo hacc hm hinner
        exact ih hrest _ _ h₁.1 h₁.2 heq

theorem ccpcAux_consistent (rc : CandPath → Int) (db : Db) :
    ∀ fuel, AuxConsistent rc (ccpcAux db fuel) := by
  intro fuel
  induction fuel with
  | zero =>
    intro info cur cost visited memo r memo' _ _ _ heq
    simp only [ccpcAux] at heq
    cases heq
  | succ fuel ih =>
    intro info cur cost visited memo r memo' hinfo hcur hm heq
    simp only [ccpcAux] at heq
    split at heq
    · injection heq with h
      injection h with h1 h2
      subst h1 h2
      refine ⟨?_, hm⟩
      intro ci hci
      simp only [List.mem_singleton] at hci
      subst hci
      exact hcur
    · split at heq
      · rename_i r₀ hfind
        injection heq with h
        injection h with h1 h2
        subst h1 h2
        obtain ⟨key, hkey⟩ := memoFind_mem hfind
        exact ⟨hm (key, r₀) hkey, hm⟩
      · split at heq
        · cases heq
        · rename_i combined memo₁ houter
          have h₁ := outerLoop_consistent rc db _ ih info cur visited hinfo hcur
            info hinfo [] memo (fun ci hci => absurd hci (List.not_mem_nil ci))
            hm houter
          injection heq with h
          injection h with h1 h2
          subst h1 h2
          have hres : ConsistentRes rc ((sortByCost combined).take 5) := by
            intro ci hci
            have hmem : ci ∈ sortByCost combined :=
              (List.take_sublist 5 _).mem hci
            exact h₁.1 ci ((sortByCost_perm combined).mem_iff.mp hmem)
          refine ⟨hres, ?_⟩
          intro kv hkv
          rcases List.mem_cons.mp hkv with rfl | hkv'
          · exact hres
          · exact h₁.2 kv hkv'

theorem innerLoop_nil (db : Db) (recur : Recur) (hrec : AuxNil recur)
    (info : Candidates) (dest : String) (cur : Combo) (visited : List String)
    (d : String) (hbad : BadDest info visited d) :
    ∀ (cands : List (CandPath × Int)), (dest = d → allPlaceholders cands) →
      ∀ (memo : Memo) {acc' : List (Combo × Int)} {memo' : Memo}, MemoNil memo →
        innerLoop db recur info dest cur visited cands [] memo = some (acc', memo') →
        acc' = [] ∧ MemoNil memo' := by
  intro cands
  induction cands with
  | nil =>
    intro _ memo acc' memo' hm heq
    simp only [innerLoop] at heq
    injection heq with h
    injection h with h1 h2
    subst h1 h2
    exact ⟨rfl, hm⟩
  | cons pc rest ih =>
    intro hcands memo acc' memo' hm heq
    have hrest : dest = d → allPlaceholders rest :=
      fun hd pc' h => hcands hd pc' (List.mem_cons_of_mem pc h)
    simp only [innerLoop] at heq
    split at heq
    · exact ih hrest _ hm heq
    · rename_i hnotstr
      have hdne : dest ≠ d := by
        intro hd
        exact hnotstr (hcands hd pc (List.mem_cons_self pc rest))
      split at heq
      · cases heq
      · rename_i subs memo₁ hr
        obtain ⟨hdnv, ⟨cl, hcl⟩, hall⟩ := hbad
        have hbad' : BadDest (info.filter
            (fun e => !(decide (e.1 ∈ dest :: visited)))) (dest :: visited) d := by
          refine ⟨?_, ⟨cl, ?_⟩, ?_⟩
          · intro hmem
            rcases List.mem_cons.mp hmem with h | h
            · exact hdne h.symm
            · exact hdnv h
          · rw [List.mem_filter]
            refine ⟨hcl, ?_⟩
            simp only [Bool.not_eq_eq_eq_not, Bool.not_true, decide_eq_false_iff_not]
            intro hmem
            rcases List.mem_cons.mp hmem with h | h
            · exact hdne h.symm
            · exact hdnv h
          · exact fun e he => hall e (List.mem_of_mem_filter he)
        have h₁ := hrec _ _ _ _ _ _ _ d hbad' hm hr
        obtain ⟨rfl, hm₁⟩ := h₁
        exact ih hrest _ hm₁ heq

theorem outerLoop_nil (db : Db) (recur : Recur) (hrec : AuxNil recur)
    (info : Candidates) (cur : Combo) (visited : List String)
    (d : String) (hbad : BadDest info visited d) :
    ∀ (entries : Candidates), (∀ e ∈ entries, e.1 = d → allPlaceholders e.2) →
      ∀ (memo : Memo) {acc' : List (Combo × Int)} {memo' : Memo}, MemoNil memo →
        outerLoop db recur info cur visited entries [] memo = some (acc', memo') →
        acc' = [] ∧ MemoNil memo' := by
  intro entries
  induction entries with
  | nil =>
    intro _ memo acc' memo' hm heq
    simp only [outerLoop] at heq
    injection heq with h
    injection h with h1 h2
    subst h1 h2
    exact ⟨rfl, hm⟩
  | cons entry rest ih =>
    intro hentries memo acc' memo' hm heq
    have hrest : ∀ e ∈ rest, e.1 = d → allPlaceholders e.2 :=
      fun e he => hentries e (List.mem_cons_of_mem entry he)
    simp only [outerLoop] at heq
    split at heq
    · exact ih hrest _ hm heq
    · split at heq
      · cases heq
      · rename_i acc₁ memo₁ hinner
        have h₁ := innerLoop_nil db recur hrec info entry.1 cur visited d hbad
          entry.2 (hentries entry (List.mem_cons_self entry rest)) memo hm hinner
        obtain ⟨rfl, hm₁⟩ := h₁
        exact ih hrest _ hm₁ heq

theorem ccpcAux_nil (db : Db) : ∀ fuel, AuxNil (ccpcAux db fuel) := by
  intro fuel
  induction fuel with
  | zero =>
    intro info cur cost visited memo r memo' d _ _ heq
    simp only [ccpcAux] at heq
    cases heq
  | succ fuel ih =>
    intro info cur cost visited memo r memo' d hbad hm heq
    simp only [ccpcAux] at heq
    split at heq
    · rename_i hnil
      obtain ⟨_, ⟨cl, hcl⟩, _⟩ := hbad
      rw [hnil] at hcl
      exact absurd hcl (List.not_mem_nil _)
    · split at heq
      · rename_i r₀ hfind
        injection heq with h
        injection h with h1 h2
        subst h1 h2
        obtain ⟨key, hkey⟩ := memoFind_mem hfind
        exact ⟨hm (key, r₀) hkey, hm⟩
      · split at heq
        · cases heq
        · rename_i combined memo₁ houter
          have h₁ := outerLoop_nil db _ ih info cur visited d hbad info
            hbad.2.2 memo hm houter
          obtain ⟨rfl, hm₁⟩ := h₁
          injection heq with h
          injection h with h1 h2
          subst h1 h2
          refine ⟨rfl, ?_⟩
          intro kv hkv
          rcases List.mem_cons.mp hkv with rfl | hkv'
          · rfl
          · exact hm₁ kv hkv'

theorem innerLoop_total (db : Db) (recur : Recur) (info : Candidates)
    (dest : String) (cur : Combo) (visited : List String) (n : Nat)
    (hrec : ∀ info' cur' cost' vis' memo', info'.length < n →
      ∃ out, recur info' cur' cost' vis' memo' = some out)
    (hlen : info.length ≤ n) (hdest : ∃ e ∈ info, e.1 = dest) :
    ∀ (cands : List (CandPath × Int)) (acc : List (Combo × Int)) (memo : Memo),
      ∃ out, innerLoop db recur info dest cur visited cands acc memo = some out := by
  intro cands
  induction cands with
  | nil => exact fun acc memo => ⟨(acc, memo), rfl⟩
  | cons pc rest ih =>
    intro acc memo
    simp only [innerLoop]
    split
    · exact ih acc memo
    · have hlt : (info.filter
          (fun e => !(decide (e.1 ∈ dest :: visited)))).length < info.length := by
        rw [List.length_filter_lt_length_iff_exists]
        obtain ⟨e, he, hedest⟩ := hdest
        refine ⟨e, he, ?_⟩
        simp [hedest]
      obtain ⟨⟨subs, memo₁⟩, hr⟩ := hrec _ _ _ _ memo (lt_of_lt_of_le hlt hlen)
      rw [hr]
      exact ih (insertDedup acc subs) memo₁

theorem outerLoop_total (db : Db) (recur : Recur) (info : Candidates)
    (cur : Combo) (visited : List String) (n : Nat)
    (hrec : ∀ info' cur' cost' vis' memo', info'.length < n →
      ∃ out, recur info' cur' cost' vis' memo' = some out)
    (hlen : info.length ≤ n) :
    ∀ (entries : Candidates), (∀ e ∈ entries, e ∈ info) →
      ∀ (acc : List (Combo × Int)) (memo : Memo),
        ∃ out, outerLoop db recur info cur visited entries acc memo = some out := by
  intro entries
  induction entries with
  | nil => exact fun _ acc memo => ⟨(acc, memo), rfl⟩
  | cons entry rest ih =>
    intro hsub acc memo
    have hrest : ∀ e ∈ rest, e ∈ info :=
      fun e he => hsub e (List.mem_cons_of_mem entry he)
    simp only [outerLoop]
    split
    · exact ih hrest acc memo
    · obtain ⟨⟨acc₁, memo₁⟩, hinner⟩ := innerLoop_total db recur info entry.1
        cur visited n hrec hlen ⟨entry, hsub entry (List.mem_cons_self entry rest), rfl⟩
        entry.2 acc memo
      rw [hinner]
      exact ih hrest acc₁ memo₁

theorem ccpcAux_total (db : Db) :
    ∀ (fuel : Nat) (info : Candidates) (cur : Combo) (cost : Int)
      (visited : List String) (memo : Memo), info.length < fuel →
      ∃ out, ccpcAux db fuel info cur cost visited memo = some out := by
  intro fuel
  induction fuel with
  | zero => intro info _ _ _ _ h; omega
  | succ fuel ih =>
    intro info cur cost visited memo hlen
    simp only [ccpcAux]
    split
    · exact ⟨([(cur, cost)], memo), rfl⟩
    · split
      · rename_i r₀ _
        exact ⟨(r₀, memo), rfl⟩
      · obtain ⟨⟨combined, memo₁⟩, houter⟩ := outerLoop_total db _ info cur
          visited fuel (fun info' cur' cost' vis' memo' h =>
            ih info' cur' cost' vis' memo' h)
          (by omega) info (fun e he => he) [] memo
        rw [houter]
        exact ⟨_, rfl⟩

theorem chargePaths_single {α : Type} [DecidableEq α] (c : α → Int)
    (ns : List α) (h : ns.Nodup) : (chargePaths c [ns] []).1 = 0 := by
  show (chargeList c ns []).1 + 0 = 0
  rw [chargeList_fst_nil_vis c ns h]
  rfl

theorem noDup_upgrade (rc : CandPath → Int) {r : List (Combo × Int)}
    (hnd : NoDupResult r) (hc : ConsistentRes rc r) :
    r.Pairwise (fun a b => ¬(a.2 = b.2 ∧ pathSetEq a.1 b.1)) := by
  refine List.Pairwise.imp_of_mem ?_ hnd
  intro a b ha hb hd hcontra
  obtain ⟨hcost, hps⟩ := hcontra
  apply hd
  refine ⟨hcost, fun x => ⟨?_, ?_⟩⟩
  · intro hx
    obtain ⟨c', hc'⟩ := (hps x.1).mp ⟨x.2, hx⟩
    have hcx : c' = rc x.1 := hc b hb (x.1, c') hc'
    have hx2 : x.2 = rc x.1 := hc a ha x hx
    have : (x.1, x.2) ∈ b.1 := by
      rw [hx2, ← hcx]
      exact hc'
    exact this
  · intro hx
    obtain ⟨c', hc'⟩ := (hps x.1).mpr ⟨x.2, hx⟩
    have hcx : c' = rc x.1 := hc a ha (x.1, c') hc'
    have hx2 : x.2 = rc x.1 := hc b hb x hx
    have : (x.1, x.2) ∈ a.1 := by
      rw [hx2, ← hcx]
      exact hc'
    exact this

theorem find_all_drop (results : String → List (CandPath × Int)) (d : String)
    (hd : results d = []) :
    ∀ (dests : List String) (acc : Candidates), (∀ cl, (d, cl) ∉ acc) →
      ∀ cl, (d, cl) ∉ dests.foldl
        (fun acc d' => if results d' = [] then acc else acc ++ [(d', results d')]) acc
  | [], _, hacc => hacc
  | d' :: rest, acc, hacc => by
    show ∀ cl, (d, cl) ∉ rest.foldl _
      (if results d' = [] then acc else acc ++ [(d', results d')])
    refine find_all_drop results d hd rest _ ?_
    intro cl hmem
    split at hmem
    · exact hacc cl hmem
    · rename_i hne
      rcases List.mem_append.mp hmem with h | h
      · exact hacc cl h
      · simp only [List.mem_singleton, Prod.mk.injEq] at h
        exact hne (h.1 ▸ hd)

/-- C1, counterexample: on the map `{d1: [one real path], d2: [placeholder
only]}` the Search returns the empty result list — no Combination at all is
produced, so the claimed placeholder-filled Combinations covering every
requested destination do not exist; and `find_all_paths_to_destinations`
drops a destination whose query results are empty from the map instead of
filling it with a placeholder. -/
theorem spec_c1_counterexample :
    (calculate_combined_paths_cost dbOne
      [("d1", [(CandPath.real ["S", "A", "D1"], 5)]),
       ("d2", [(CandPath.strPlaceholder "no available path", 0)])] [] 0 [] []).1 = []
    ∧ find_all_paths_to_destinations
        (fun d => if d = "d1" then [(CandPath.real ["S", "A", "D1"], 5)] else [])
        ["d1", "d2"]
      = [("d1", [(CandPath.real ["S", "A", "D1"], 5)])] :=
  ⟨by decide, by decide⟩

/-- C1, amended: a destination with an empty candidate query result is
dropped from the candidate map by `find_all_paths_to_destinations`, and if
some unvisited destination of the map has only placeholder candidates the
Search still completes but returns the empty result list (placeholder
entries are skipped, never substituted as zero-cost paths). -/
theorem spec_c1_amended :
    (∀ (results : String → List (CandPath × Int)) (dests : List String)
       (d : String), results d = [] →
       ∀ cl, (d, cl) ∉ find_all_paths_to_destinations results dests)
    ∧ ∀ (db : Db) (info : Candidates) (cur : Combo) (cost : Int)
        (visited : List String) (memo : Memo) (d : String),
        BadDest info visited d → MemoNil memo →
        (calculate_combined_paths_cost db info cur cost visited memo).1 = [] := by
  constructor
  · intro results dests d hd
    exact find_all_drop results d hd dests []
      (fun cl h => absurd h (List.not_mem_nil _))
  · intro db info cur cost visited memo d hbad hm
    rw [calculate_combined_paths_cost]
    cases h : ccpcAux db (info.length + 1) info cur cost visited memo with
    | none => rfl
    | some out =>
      obtain ⟨r, memo'⟩ := out
      have hnil := ccpcAux_nil db (info.length + 1) info cur cost visited memo
        r memo' d hbad hm h
      simpa using hnil.1

/-- C1, witness: on a concrete one-destination map whose only candidate is
the placeholder, the Search returns the empty result list. -/
theorem spec_c1_witness :
    (calculate_combined_paths_cost dbOne
      [("d2", [(CandPath.strPlaceholder "no available path", 0)])] [] 0 [] []).1 = [] :=
  spec_c1_amended.2 dbOne
    [("d2", [(CandPath.strPlaceholder "no available path", 0)])] [] 0 [] [] "d2"
    ⟨by simp, ⟨[(CandPath.strPlaceholder "no available path", 0)], by simp⟩,
      by
        intro e he _
        simp only [List.mem_singleton] at he
        subst he
        intro pc hpc
        simp only [List.mem_singleton] at hpc
        subst hpc
        rfl⟩
    (fun kv hkv => absurd hkv (List.not_mem_nil kv))

/-- C2, counterexample: on a single real path `S -> A` the evaluator's
second output contains the interior node `A` even though `A` occurs in only
one input path, so the second output is not the set of double-counted node
identifiers. -/
theorem spec_c2_counterexample :
    "A" ∈ (calculate_total_path_cost dbOne [CandPath.real ["S", "A"]] [5]).2
    ∧ [CandPath.real ["S", "A"]].countP
        (fun p => decide ("A" ∈ interiorNodes p)) = 1 :=
  ⟨by decide, by decide⟩

/-- C2, amended: for every non-empty input, the evaluator returns the summed
raw costs minus the node overlap charge minus the edge overlap charge, and
its second output is the set of ALL interior nodes of the input paths (the
visited-node set), not only the double-counted ones. -/
theorem spec_c2_amended (db : Db) (paths : List CandPath)
    (sub_costs : List Int) (_hne : paths ≠ []) :
    (calculate_total_path_cost db paths sub_costs).1
      = sub_costs.sum
        - (chargePaths db.nodeCost (paths.map interiorNodes) []).1
        - (chargePaths db.edgeCost (paths.map pathEdges) []).1
    ∧ ∀ n, (n ∈ (calculate_total_path_cost db paths sub_costs).2
        ↔ ∃ p ∈ paths, n ∈ interiorNodes p) := by
  refine ⟨rfl, fun n => ?_⟩
  show n ∈ (chargePaths db.nodeCost (paths.map interiorNodes) []).2 ↔ _
  rw [chargePaths_snd_mem]
  simp

/-- C2, witness: the amended formula instantiated on one concrete path. -/
theorem spec_c2_witness :
    (calculate_total_path_cost dbOne [CandPath.real ["S", "A"]] [5]).1
      = ([5] : List Int).sum
        - (chargePaths dbOne.nodeCost
            ([CandPath.real ["S", "A"]].map interiorNodes) []).1
        - (chargePaths dbOne.edgeCost
            ([CandPath.real ["S", "A"]].map pathEdges) []).1 :=
  (spec_c2_amended dbOne [CandPath.real ["S", "A"]] [5] (by simp)).1

/-- C3, counterexample: with all node and edge costs 0 (which is
non-negative), two paths sharing the interior node `A` still evaluate to
the full raw sum, so equality does not imply absence of sharing. -/
theorem spec_c3_counterexample :
    (∀ n, 0 ≤ dbZero.nodeCost n) ∧ (∀ e, 0 ≤ dbZero.edgeCost e)
    ∧ (calculate_total_path_cost dbZero
        [CandPath.real ["S", "A", "D1"], CandPath.real ["S", "A", "D2"]] [3, 4]).1
      = ([3, 4] : List Int).sum
    ∧ 2 ≤ occurrences "A"
        ([CandPath.real ["S", "A", "D1"],
          CandPath.real ["S", "A", "D2"]].map interiorNodes) :=
  ⟨fun _ => le_refl 0, fun _ => le_refl 0, by decide, by decide⟩

/-- C3, amended: with non-negative costs the evaluator's combination cost
is at most the summed raw costs, equality holds whenever no node or edge is
shared between two or more paths, and when every node and edge cost is
strictly positive, equality holds exactly when there is no sharing. -/
theorem spec_c3_amended (db : Db) (paths : List CandPath)
    (sub_costs : List Int) (h0n : ∀ n, 0 ≤ db.nodeCost n)
    (h0e : ∀ e, 0 ≤ db.edgeCost e) :
    (calculate_total_path_cost db paths sub_costs).1 ≤ sub_costs.sum
    ∧ (NoOverlap paths →
        (calculate_total_path_cost db paths sub_costs).1 = sub_costs.sum)
    ∧ ((∀ n, 0 < db.nodeCost n) → (∀ e, 0 < db.edgeCost e) →
        ((calculate_total_path_cost db paths sub_costs).1 = sub_costs.sum
          ↔ NoOverlap paths)) := by
  have hval : (calculate_total_path_cost db paths sub_costs).1
      = sub_costs.sum
        - (chargePaths db.nodeCost (paths.map interiorNodes) []).1
        - (chargePaths db.edgeCost (paths.map pathEdges) []).1 := rfl
  have hCn0 := chargePaths_nonneg db.nodeCost h0n (paths.map interiorNodes) []
  have hCe0 := chargePaths_nonneg db.edgeCost h0e (paths.map pathEdges) []
  have hzero : NoOverlap paths →
      (chargePaths db.nodeCost (paths.map interiorNodes) []).1 = 0 ∧
      (chargePaths db.edgeCost (paths.map pathEdges) []).1 = 0 := by
    rintro ⟨hn, he⟩
    constructor
    · refine chargePaths_zero _ _ _ (fun ns hns => ?_) (by simp) (fun a => ?_)
      · rcases List.mem_map.mp hns with ⟨p, _, rfl⟩
        exact interiorNodes_nodup p
      · exact hn a
    · refine chargePaths_zero _ _ _ (fun ns hns => ?_) (by simp) (fun a => ?_)
      · rcases List.mem_map.mp hns with ⟨p, _, rfl⟩
        exact pathEdges_nodup p
      · exact he a
  refine ⟨by rw [hval]; omega, fun hno => ?_, fun hpn hpe => ?_⟩
  · obtain ⟨h1, h2⟩ := hzero hno
    rw [hval, h1, h2]
    ring
  · constructor
    · intro heqv
      by_contra hno
      rw [NoOverlap, not_and_or] at hno
      rcases hno with h | h
      · push_neg at h
        obtain ⟨n, hn2⟩ := h
        have h2 : 2 ≤ occurrences n (paths.map interiorNodes) := by omega
        have hpos := chargePaths_pos db.nodeCost h0n n (hpn n)
          (paths.map interiorNodes) [] h2
        rw [hval] at heqv
        omega
      · push_neg at h
        obtain ⟨e, he2⟩ := h
        have h2 : 2 ≤ occurrences e (paths.map pathEdges) := by omega
        have hpos := chargePaths_pos db.edgeCost h0e e (hpe e)
          (paths.map pathEdges) [] h2
        rw [hval] at heqv
        omega
    · intro hno
      obtain ⟨h1, h2⟩ := hzero hno
      rw [hval, h1, h2]
      ring

/-- C3, witness: the inequality instantiated on a concrete evaluation with
the all-ones (non-negative) cost table. -/
theorem spec_c3_witness :
    (calculate_total_path_cost dbOne [CandPath.real ["S", "A"]] [3]).1
      ≤ ([3] : List Int).sum :=
  (spec_c3_amended dbOne [CandPath.real ["S", "A"]] [3]
    (fun _ => zero_le_one) (fun _ => zero_le_one)).1

/-- C4: on every input of exactly two paths the pairwise-first-occurrence
evaluator of `1013.py` and the set-intersection evaluator of
`userStory4.py` agree on the true cost, and on a concrete input of three
paths (two of which share node `X` and edge `(S, X)`) they differ. -/
theorem spec_c4 :
    (∀ (db : Db) (p₁ p₂ : CandPath) (c₁ c₂ : Int),
      (calculate_total_path_cost db [p₁, p₂] [c₁, c₂]).1
        = (calculate_total_path_cost_us4 db [p₁, p₂] [c₁, c₂]).1)
    ∧ (calculate_total_path_cost dbOne
        [CandPath.real ["S", "X", "A"], CandPath.real ["S", "X", "B"],
         CandPath.real ["S", "Y", "C"]] [10, 10, 10]).1
      ≠ (calculate_total_path_cost_us4 dbOne
        [CandPath.real ["S", "X", "A"], CandPath.real ["S", "X", "B"],
         CandPath.real ["S", "Y", "C"]] [10, 10, 10]).1 :=
  ⟨two_path_cost_eq, by decide⟩

/-- C5: for every candidate-list map and every memo whose stored values
respect the invariant, the result list returned by the top-level Search is
sorted ascending by true cost and holds at most 5 entries, and the same
holds for the list returned by every recursive call (any fuel). -/
theorem spec_c5 (db : Db) (info : Candidates) (cur : Combo) (cost : Int)
    (visited : List String) (memo : Memo) (hm : MemoSorted memo) :
    (SortedByCost (calculate_combined_paths_cost db info cur cost visited memo).1
      ∧ (calculate_combined_paths_cost db info cur cost visited memo).1.length ≤ 5)
    ∧ ∀ fuel r memo',
        ccpcAux db fuel info cur cost visited memo = some (r, memo') →
        SortedByCost r ∧ r.length ≤ 5 := by
  constructor
  · rw [calculate_combined_paths_cost]
    cases h : ccpcAux db (info.length + 1) info cur cost visited memo with
    | none => exact ⟨List.Pairwise.nil, by simp⟩
    | some out =>
      obtain ⟨r, memo'⟩ := out
      exact (ccpcAux_sorted db _ info cur cost visited memo r memo' hm h).1
  · intro fuel r memo' h
    exact (ccpcAux_sorted db fuel info cur cost visited memo r memo' hm h).1

/-- C5, witness: the sortedness and size bound instantiated on a concrete
two-candidate map with the empty memo. -/
theorem spec_c5_witness :
    SortedByCost (calculate_combined_paths_cost dbOne
      [("d1", [(CandPath.real ["S", "A", "D1"], 5),
               (CandPath.real ["S", "B", "D1"], 7)])] [] 0 [] []).1
    ∧ (calculate_combined_paths_cost dbOne
      [("d1", [(CandPath.real ["S", "A", "D1"], 5),
               (CandPath.real ["S", "B", "D1"], 7)])] [] 0 [] []).1.length ≤ 5 :=
  (spec_c5 dbOne
    [("d1", [(CandPath.real ["S", "A", "D1"], 5),
             (CandPath.real ["S", "B", "D1"], 7)])] [] 0 [] []
    (fun kv hkv => absurd hkv (List.not_mem_nil kv))).1

/-- C6: whenever every candidate pair carries the raw cost its path is
assigned by a cost function `rc` (as the data model requires: a candidate
is a path with ITS raw cost), no two entries of a returned result list have
both the same true cost and the same chosen path set compared by node
sequence; the rejection is performed by `path_already_exists` before each
insertion. -/
theorem spec_c6 (db : Db) (rc : CandPath → Int) (info : Candidates)
    (cur : Combo) (cost : Int) (visited : List String) (memo : Memo)
    (hinfo : ConsistentMap rc info) (hcur : ConsistentCombo rc cur)
    (hmnd : MemoNoDup memo) (hmc : MemoConsistent rc memo) :
    (calculate_combined_paths_cost db info cur cost visited memo).1.Pairwise
      (fun a b => ¬(a.2 = b.2 ∧ pathSetEq a.1 b.1))
    ∧ ∀ fuel r memo',
        ccpcAux db fuel info cur cost visited memo = some (r, memo') →
        r.Pairwise (fun a b => ¬(a.2 = b.2 ∧ pathSetEq a.1 b.1)) := by
  constructor
  · rw [calculate_combined_paths_cost]
    cases h : ccpcAux db (info.length + 1) info cur cost visited memo with
    | none => exact List.Pairwise.nil
    | some out =>
      obtain ⟨r, memo'⟩ := out
      have hnd := (ccpcAux_noDup db _ info cur cost visited memo r memo' hmnd h).1
      have hcons := (ccpcAux_consistent rc db _ info cur cost visited memo r memo'
        hinfo hcur hmc h).1
      exact noDup_upgrade rc hnd hcons
  · intro fuel r memo' h
    have hnd := (ccpcAux_noDup db fuel info cur cost visited memo r memo' hmnd h).1
    have hcons := (ccpcAux_consistent rc db fuel info cur cost visited memo r memo'
      hinfo hcur hmc h).1
    exact noDup_upgrade rc hnd hcons

/-- C6, witness: the deduplication property instantiated on a concrete
cost-consistent map with the empty memo. -/
theorem spec_c6_witness :
    (calculate_combined_paths_cost dbOne
      [("d1", [(CandPath.real ["S", "A", "D1"], 5)])] [] 0 [] []).1.Pairwise
      (fun a b => ¬(a.2 = b.2 ∧ pathSetEq a.1 b.1)) :=
  (spec_c6 dbOne (fun _ => 5) [("d1", [(CandPath.real ["S", "A", "D1"], 5)])]
    [] 0 [] []
    (by
      intro e he pc hpc
      simp only [List.mem_singleton] at he
      subst he
      simp only [List.mem_singleton] at hpc
      subst hpc
      rfl)
    (fun pc hpc => absurd hpc (List.not_mem_nil pc))
    (fun kv hkv => absurd hkv (List.not_mem_nil kv))
    (fun kv hkv => absurd hkv (List.not_mem_nil kv))).1

/-- C7: the Search invoked on the empty candidate-list map from the initial
state (empty combination, cost 0, empty visited set, empty memo) returns
exactly one result, the empty Combination with cost 0, and no error. -/
theorem spec_c7 (db : Db) :
    calculate_combined_paths_cost db [] [] 0 [] [] = ([([], 0)], []) := rfl

/-- C8: a Combination of exactly one chosen path evaluates to that path's
raw cost under both evaluators (no overlap to subtract). -/
theorem spec_c8 (db : Db) (p : CandPath) (c : Int) :
    (calculate_total_path_cost db [p] [c]).1 = c
    ∧ (calculate_total_path_cost_us4 db [p] [c]).1 = c := by
  constructor
  · show [c].sum - (chargePaths db.nodeCost [interiorNodes p] []).1
        - (chargePaths db.edgeCost [pathEdges p] []).1 = c
    rw [chargePaths_single _ _ (interiorNodes_nodup p),
      chargePaths_single _ _ (pathEdges_nodup p)]
    simp
  · simp [calculate_total_path_cost_us4]

/-- C9: when two paths share exactly the one interior node `m` of cost `cm`
and share no edge, both evaluators price the pair at the sum of the raw
costs minus `cm`. -/
theorem spec_c9 (db : Db) (p₁ p₂ : CandPath) (c₁ c₂ : Int) (m : String)
    (cm : Int)
    (hnode : memFilter (interiorNodes p₂) (interiorNodes p₁) = [m])
    (hedge : memFilter (pathEdges p₂) (pathEdges p₁) = [])
    (hcost : db.nodeCost m = cm) :
    (calculate_total_path_cost db [p₁, p₂] [c₁, c₂]).1 = c₁ + c₂ - cm
    ∧ (calculate_total_path_cost_us4 db [p₁, p₂] [c₁, c₂]).1 = c₁ + c₂ - cm := by
  have h1013 : (calculate_total_path_cost db [p₁, p₂] [c₁, c₂]).1
      = c₁ + c₂ - cm := by
    show [c₁, c₂].sum
        - (chargePaths db.nodeCost [interiorNodes p₁, interiorNodes p₂] []).1
        - (chargePaths db.edgeCost [pathEdges p₁, pathEdges p₂] []).1 = _
    rw [chargePaths_pair_mf _ _ _ (interiorNodes_nodup p₁) (interiorNodes_nodup p₂),
      chargePaths_pair_mf _ _ _ (pathEdges_nodup p₁) (pathEdges_nodup p₂),
      hnode, hedge]
    simp [hcost]
  exact ⟨h1013, by rw [← two_path_cost_eq]; exact h1013⟩

/-- C9, witness: two concrete paths sharing exactly the interior node `M`
of cost 1 evaluate to `10 + 20 - 1`. -/
theorem spec_c9_witness :
    (calculate_total_path_cost dbOne
      [CandPath.real ["S", "M", "D1"], CandPath.real ["S", "B", "M", "D2"]]
      [10, 20]).1 = 10 + 20 - 1 :=
  (spec_c9 dbOne (CandPath.real ["S", "M", "D1"])
    (CandPath.real ["S", "B", "M", "D2"]) 10 20 "M" 1
    (by decide) (by decide) (by decide)).1

/-- C10: the recursive Search terminates on every finite candidate-list
map: with any fuel exceeding the number of destinations (in particular the
entry point's `length + 1`) the fueled recursion completes with a result,
because each recursive call filters the chosen destination out of the map
and so recurses on a strictly smaller map. -/
theorem spec_c10 (db : Db) (info : Candidates) (cur : Combo) (cost : Int)
    (visited : List String) (memo : Memo) :
    (∃ out, ccpcAux db (info.length + 1) info cur cost visited memo = some out)
    ∧ ∀ fuel, info.length < fuel →
        ∃ out, ccpcAux db fuel info cur cost visited memo = some out :=
  ⟨ccpcAux_total db (info.length + 1) info cur cost visited memo (by omega),
   fun fuel hf => ccpcAux_total db fuel info cur cost visited memo hf⟩

/-- C10, witness: termination instantiated on a concrete one-destination
map including a placeholder entry. -/
theorem spec_c10_witness :
    ∃ out, ccpcAux dbOne 2
      [("d1", [(CandPath.real ["S", "A", "D1"], 5),
               (CandPath.strPlaceholder "no available path", 0)])]
      [] 0 [] [] = some out :=
  (spec_c10 dbOne
    [("d1", [(CandPath.real ["S", "A", "D1"], 5),
             (CandPath.strPlaceholder "no available path", 0)])]
    [] 0 [] []).1
